import Mathlib

/-!
Verification of the lighthouse repository against its specification.

Part 1 embeds `src/eth2/utils/validator_dir/src/builder.rs` (present in full).
Part 2 models the beacon-chain core (block import, fork choice, caches); the
modules of `src/beacon_node/beacon_chain/src/lib.rs` are declared there but
their sources are not part of the snapshot, so those definitions are modelled
from the specification, as indicated by their doc comments.
-/

namespace ValidatorDirBuilder

/-- A path component: a literal name, or a validator pubkey rendered in hex
(the Rust `pk.as_hex_string()`). -/
inductive PathComp where
  | name (s : String)
  | pkHex (pk : Nat)
deriving DecidableEq, Repr

/-- A filesystem path, as a list of components. -/
abbrev Path := List PathComp

/-- A BLS keypair, abstracted: `pk` and `sk` are opaque identifiers. -/
structure Keypair where
  pk : Nat
  sk : Nat
deriving DecidableEq, Repr

/-- Password plaintext, kept as the character sequence it was generated from. -/
abbrev PlainText := List Char

/-- An encrypted keystore, abstracted to the data that determines its
behaviour: the keypair it protects and the password it was encrypted under.
`decrypt_keypair` succeeds exactly when the supplied password matches. -/
structure Keystore where
  kp : Keypair
  pw : PlainText
deriving DecidableEq, Repr

/-- `Keystore::decrypt_keypair`: the cryptography is a black box; decryption
recovers the keypair exactly when the password matches. -/
def Keystore.decrypt_keypair (ks : Keystore) (password : PlainText) : Option Keypair :=
  if password = ks.pw then some ks.kp else none

/-- The `Error` enum of builder.rs (io payloads dropped). -/
inductive Error where
  | DirectoryAlreadyExists (p : Path)
  | UnableToCreateDir
  | UnableToEncodeDeposit
  | DepositDataAlreadyExists (p : Path)
  | UnableToSaveDepositData
  | KeystoreAlreadyExists (p : Path)
  | UnableToSaveKeystore
  | PasswordAlreadyExists (p : Path)
  | UnableToSavePassword
  | KeystoreError
  | UnableToOpenDir
deriving DecidableEq, Repr

/-- The part of `ChainSpec` used by builder.rs. -/
structure ChainSpec where
  bls_withdrawal_byte : Nat
deriving DecidableEq, Repr

/-- `DepositData` with abstract field contents. -/
structure DepositData where
  pubkey : Nat
  withdrawal_credentials : Nat
  amount : Nat
  signature : Nat
deriving DecidableEq, Repr

/-- What a file holds: a serialized keystore, a password, or deposit data. -/
inductive FileData where
  | keystoreJson (ks : Keystore)
  | passwordFile (pw : PlainText)
  | depositRlp (dd : DepositData)
deriving DecidableEq, Repr

/-- A filesystem entry. -/
inductive FsEntry where
  | dir
  | file (d : FileData)
deriving DecidableEq, Repr

/-- The filesystem: an association list from paths to entries, newest first. -/
structure FS where
  entries : List (Path × FsEntry)
deriving DecidableEq, Repr

/-- `Path::exists`. -/
def FS.pathExists (fs : FS) (p : Path) : Bool :=
  fs.entries.any (fun e => e.1 == p)

/-- Read an entry back (first match wins; writes cons to the front). -/
def FS.lookup (fs : FS) (p : Path) : Option FsEntry :=
  (fs.entries.find? (fun e => e.1 == p)).map Prod.snd

/-- Create an entry. -/
def FS.add (fs : FS) (p : Path) (e : FsEntry) : FS :=
  ⟨(p, e) :: fs.entries⟩

/-- `DEFAULT_PASSWORD_LEN` from builder.rs. -/
def DEFAULT_PASSWORD_LEN : Nat := 48

def VOTING_KEYSTORE_FILE : PathComp := .name "voting-keystore.json"
def WITHDRAWAL_KEYSTORE_FILE : PathComp := .name "withdrawal-keystore.json"
def ETH1_DEPOSIT_DATA_FILE : PathComp := .name "eth1_deposit_data.rlp"

/-- The 62-character alphabet of rand's `Alphanumeric` distribution. -/
def alphanumericChars : List Char :=
  "abcdefghijklmnopqrstuvwxyzABCDEFGHIJKLMNOPQRSTUVWXYZ0123456789".toList

/-- A deterministic stand-in for `rand::thread_rng()`: a fresh keypair for
`Keypair::random()` and a stream of uniform samples into the 62-character
`Alphanumeric` alphabet. -/
structure Rng where
  keypair : Keypair
  sample : Nat → Fin 62

/-- The password built by `random_keystore`: `DEFAULT_PASSWORD_LEN` characters
sampled from `Alphanumeric`. -/
def randomPassword (rng : Rng) : PlainText :=
  (List.range DEFAULT_PASSWORD_LEN).map (fun i => alphanumericChars.getD (rng.sample i) 'a')

/-- `random_keystore` from builder.rs. `KeystoreBuilder::new(..).build()` is
modelled as packaging the keypair under the freshly generated password (the
scrypt/AES internals are the cryptographic black box). -/
def random_keystore (rng : Rng) : Except Error (Keystore × PlainText) :=
  let keypair := rng.keypair
  let password := randomPassword rng
  let keystore : Keystore := { kp := keypair, pw := password }
  .ok (keystore, password)

/-- The `Builder` struct of builder.rs. -/
structure Builder where
  dir : Path
  password_dir : Path
  voting_keystore : Option (Keystore × PlainText)
  withdrawal_keystore : Option (Keystore × PlainText)
  store_withdrawal_keystore : Bool
  deposit_info : Option (Nat × ChainSpec)
deriving Repr

/-- `Builder::new`: refuses an existing directory before constructing. -/
def Builder.new (fs : FS) (dir password_dir : Path) : Except Error Builder :=
  if fs.pathExists dir then .error (.DirectoryAlreadyExists dir)
  else .ok { dir := dir, password_dir := password_dir, voting_keystore := none,
             withdrawal_keystore := none, store_withdrawal_keystore := true,
             deposit_info := none }

/-- The `expand_keystore!` macro body: take the supplied keystore or create a
random one, then decrypt the keypair from it. -/
def expandKeystore (supplied : Option (Keystore × PlainText)) (rng : Rng) :
    Except Error (Keystore × PlainText × Keypair) :=
  match (match supplied with
         | some kp => Except.ok kp
         | none => random_keystore rng) with
  | .error e => .error e
  | .ok (ks, pw) =>
    match ks.decrypt_keypair pw with
    | some kp => .ok (ks, pw, kp)
    | none => .error .KeystoreError

/-- A create-guarded file write: error if the path exists, else create it.
This is the common shape of `write_keystore_to_file`, `write_password_to_file`
and the deposit-data write in `build`. The filesystem is threaded through so
that the no-write-on-error behaviour is visible. -/
def guardedWrite (fs : FS) (path : Path) (d : FsEntry) (mkErr : Path → Error) :
    FS × Option Error :=
  if fs.pathExists path then (fs, some (mkErr path))
  else (fs.add path d, none)

/-- `write_keystore_to_file` from builder.rs. -/
def write_keystore_to_file (fs : FS) (path : Path) (keystore : Keystore) : FS × Option Error :=
  guardedWrite fs path (.file (.keystoreJson keystore)) Error.KeystoreAlreadyExists

/-- `write_password_to_file` from builder.rs. -/
def write_password_to_file (fs : FS) (path : Path) (password : PlainText) : FS × Option Error :=
  guardedWrite fs path (.file (.passwordFile password)) Error.PasswordAlreadyExists

/-- `get_withdrawal_credentials`, abstracted to an injective packaging. -/
def get_withdrawal_credentials (pk : Nat) (b : Nat) : Nat :=
  Nat.pair b pk

/-- `DepositData::create_signature`, abstracted to an injective packaging. -/
def DepositData.create_signature (dd : DepositData) (sk : Nat) : Nat :=
  Nat.pair sk (Nat.pair dd.pubkey (Nat.pair dd.withdrawal_credentials dd.amount))

/-- The `DepositData` constructed in `Builder::build`. -/
def mkDepositData (voting withdrawal : Keypair) (amount : Nat) (spec : ChainSpec) : DepositData :=
  let wc := get_withdrawal_credentials withdrawal.pk spec.bls_withdrawal_byte
  let dd : DepositData :=
    { pubkey := voting.pk, withdrawal_credentials := wc, amount := amount, signature := 0 }
  { dd with signature := dd.create_signature voting.sk }

/-- Sequence a fallible filesystem step with the rest of `build`: an error
aborts with the filesystem as the step left it (Rust `?`). -/
def andThen (st : FS × Option Error) (k : FS → FS × Except Error Path) :
    FS × Except Error Path :=
  match st with
  | (fs, some e) => (fs, .error e)
  | (fs, none) => k fs

/-- `Builder::build` from builder.rs, with the filesystem threaded explicitly.
Randomness for the two possible `random_keystore` calls is passed in as
`rng1`/`rng2`. `encode_eth1_tx_data` is modelled as total, and
`ValidatorDir::open` as succeeding on the directory just created. The
returned filesystem is the one left behind at the point of return, also on
error (matching Rust early return, which keeps whatever was written so far). -/
def Builder.build (b : Builder) (fs : FS) (rng1 rng2 : Rng) : FS × Except Error Path :=
  match expandKeystore b.voting_keystore rng1 with
  | .error e => (fs, .error e)
  | .ok (voting_keystore, voting_password, voting_keypair) =>
  match expandKeystore b.withdrawal_keystore rng2 with
  | .error e => (fs, .error e)
  | .ok (withdrawal_keystore, withdrawal_password, withdrawal_keypair) =>
  if fs.pathExists b.dir then (fs, .error (.DirectoryAlreadyExists b.dir))
  else
    andThen
      (match b.deposit_info with
       | some (amount, spec) =>
         let dd := mkDepositData voting_keypair withdrawal_keypair amount spec
         guardedWrite (fs.add b.dir .dir) (b.dir ++ [ETH1_DEPOSIT_DATA_FILE])
           (.file (.depositRlp dd)) Error.DepositDataAlreadyExists
       | none => (fs.add b.dir .dir, none)) fun fs2 =>
    andThen (write_password_to_file fs2
      (b.password_dir ++ [PathComp.pkHex voting_keypair.pk]) voting_password) fun fs3 =>
    andThen (write_keystore_to_file fs3
      (b.dir ++ [VOTING_KEYSTORE_FILE]) voting_keystore) fun fs4 =>
    if b.store_withdrawal_keystore then
      andThen (write_password_to_file fs4
        (b.password_dir ++ [PathComp.pkHex withdrawal_keypair.pk]) withdrawal_password) fun fs5 =>
      andThen (write_keystore_to_file fs5
        (b.dir ++ [WITHDRAWAL_KEYSTORE_FILE]) withdrawal_keystore) fun fs6 =>
      (fs6, .ok b.dir)
    else (fs4, .ok b.dir)

/-- Holds between the filesystem before and after an operation when every
pre-existing path is still present with unchanged content. -/
def Preserves (fs fs' : FS) : Prop :=
  ∀ p, fs.pathExists p = true → fs'.lookup p = fs.lookup p ∧ fs'.pathExists p = true

end ValidatorDirBuilder

namespace BeaconChain

/-!
Modelled from the spec: the modules `block_processing`, `fork_choice`,
`head_tracker`, `partial_block_verification`, `snapshot_cache` and
`validator_pubkey_cache` are declared in
`src/beacon_node/beacon_chain/src/lib.rs` but their sources are missing from
the snapshot; everything in this namespace is built from the specification's
component design (spec.md sections 3, 4 and 8).
-/

/-- Modelled from the spec: a checkpoint is an (epoch, block_root) pair. -/
structure Checkpoint where
  epoch : Nat
  root : Nat
deriving DecidableEq, Repr

/-- Modelled from the spec: a block is {slot, parent_root, state_root, body}.
The signature contents of the body are a cryptographic black box, so only the
two verification verdicts the core consumes are kept: the proposer-signature
verdict and the batch verdict over all aggregate signatures in the body. -/
structure Block where
  slot : Nat
  parent_root : Nat
  state_root : Nat
  proposer_sig_ok : Bool
  body_sigs_ok : Bool
deriving DecidableEq, Repr

/-- Content hash of a block: an injective packaging of its fields, the ideal
model of a collision-free hash. -/
def hashBlock (b : Block) : Nat :=
  Nat.pair b.slot (Nat.pair b.parent_root (Nat.pair b.state_root
    (Nat.pair (cond b.proposer_sig_ok 1 0) (cond b.body_sigs_ok 1 0))))

/-- Modelled from the spec: a fork-choice node keeps its parent link and its
accumulated attester weight. -/
structure FCNode where
  parent : Nat
  weight : Nat
deriving DecidableEq, Repr

/-- Modelled from the spec (missing module `fork_choice`): the Fork Choice
Store holds per-root nodes (newest first, so the list order records arrival
order), the justified checkpoint it descends from, and each validator's
latest message (validator index to (epoch, target_root)). -/
structure ForkChoiceStore where
  nodes : List (Nat × FCNode)
  justified : Checkpoint
  latest : List (Nat × Nat × Nat)
deriving DecidableEq, Repr

/-- Look up a node entry by root. -/
def findEntry (ns : List (Nat × FCNode)) (r : Nat) : Option (Nat × FCNode) :=
  ns.find? (fun e => e.1 == r)

/-- The children of `r`: the entries whose parent link is `r`. -/
def childrenOf (ns : List (Nat × FCNode)) (r : Nat) : List (Nat × FCNode) :=
  ns.filter (fun e => e.2.parent == r)

/-- Modelled from the spec: the comparison used to descend — greater
accumulated weight wins, and a weight tie is broken by the lexicographically
smallest block_root. `betterNode a b` holds when `a` is preferred to `b`. -/
def betterNode (a b : Nat × FCNode) : Bool :=
  b.2.weight < a.2.weight || (a.2.weight == b.2.weight && a.1 < b.1)

/-- One step of selecting the preferred child. -/
def chooseStep (acc : Option (Nat × FCNode)) (e : Nat × FCNode) : Option (Nat × FCNode) :=
  match acc with
  | none => some e
  | some a => if betterNode e a then some e else some a

/-- The preferred element of a candidate list (none when the list is empty). -/
def selectBest (l : List (Nat × FCNode)) : Option (Nat × FCNode) :=
  l.foldl chooseStep none

/-- Fuel-bounded descent: from `r`, repeatedly move to the preferred child,
stopping at a node with no children. -/
def headFrom (ns : List (Nat × FCNode)) : Nat → Nat → Nat
  | 0, r => r
  | fuel + 1, r =>
    match selectBest (childrenOf ns r) with
    | none => r
    | some c => headFrom ns fuel c.1

/-- Modelled from the spec: `get_head` starts at the current justified
checkpoint and descends to the child of greatest accumulated weight, breaking
ties by the smallest block_root, until reaching a leaf. The fuel equals the
node count, which bounds the depth of any descent. -/
def get_head (fc : ForkChoiceStore) : Nat :=
  headFrom fc.nodes fc.nodes.length fc.justified.root

/-- Modelled from the spec: `on_block` registers the block's node with weight
0 linked under its parent. -/
def on_block (fc : ForkChoiceStore) (b : Block) : ForkChoiceStore :=
  { fc with nodes := (hashBlock b, { parent := b.parent_root, weight := 0 }) :: fc.nodes }

/-- Feed a list of blocks to the store in arrival order. -/
def feedBlocks (fc : ForkChoiceStore) (bs : List Block) : ForkChoiceStore :=
  bs.foldl on_block fc

/-- Modelled from the spec: an attestation carries the attesting validator's
index, its epoch, the target block root, and the validator's effective
balance (the weight it contributes). -/
structure Attestation where
  validator : Nat
  epoch : Nat
  target : Nat
  balance : Nat
deriving DecidableEq, Repr

/-- The validator's recorded latest message, if any. -/
def latestFor (fc : ForkChoiceStore) (v : Nat) : Option (Nat × Nat) :=
  (fc.latest.find? (fun e => e.1 == v)).map Prod.snd

/-- The roots on the parent-link path from `r` up to `stop` (inclusive of `r`,
stopping at `stop` or at an unknown node), fuel-bounded. -/
def ancestorsUpTo (ns : List (Nat × FCNode)) : Nat → Nat → Nat → List Nat
  | 0, r, _ => [r]
  | fuel + 1, r, stop =>
    if r == stop then [r]
    else
      match findEntry ns r with
      | none => [r]
      | some e => r :: ancestorsUpTo ns fuel e.2.parent stop

/-- Add `amt` of weight to every listed root (incremental bookkeeping). -/
def addWeight (ns : List (Nat × FCNode)) (targets : List Nat) (amt : Nat) :
    List (Nat × FCNode) :=
  ns.map fun e =>
    if targets.contains e.1 then (e.1, { e.2 with weight := e.2.weight + amt }) else e

/-- Remove `amt` of weight from every listed root. -/
def subWeight (ns : List (Nat × FCNode)) (targets : List Nat) (amt : Nat) :
    List (Nat × FCNode) :=
  ns.map fun e =>
    if targets.contains e.1 then (e.1, { e.2 with weight := e.2.weight - amt }) else e

/-- Modelled from the spec: `on_attestation` overwrites the validator's
latest message only when the attestation's epoch is strictly greater than the
recorded one (a first message is always recorded), and incrementally moves
the validator's balance: it is removed from the old target's path up to the
justified checkpoint and added along the new target's path. -/
def on_attestation (fc : ForkChoiceStore) (a : Attestation) : ForkChoiceStore :=
  match latestFor fc a.validator with
  | none =>
    let anc := ancestorsUpTo fc.nodes fc.nodes.length a.target fc.justified.root
    { fc with latest := (a.validator, a.epoch, a.target) :: fc.latest,
              nodes := addWeight fc.nodes anc a.balance }
  | some (e, t) =>
    if e < a.epoch then
      let ancOld := ancestorsUpTo fc.nodes fc.nodes.length t fc.justified.root
      let ancNew := ancestorsUpTo fc.nodes fc.nodes.length a.target fc.justified.root
      { fc with
        latest := fc.latest.map
          (fun ent => if ent.1 == a.validator then (a.validator, a.epoch, a.target) else ent),
        nodes := addWeight (subWeight fc.nodes ancOld a.balance) ancNew a.balance }
    else fc

/-- Feed a list of attestations to the store in arrival order. -/
def feedAtts (fc : ForkChoiceStore) (atts : List Attestation) : ForkChoiceStore :=
  atts.foldl on_attestation fc

/-- Whether `r` descends from `stop` by parent links, fuel-bounded. -/
def descendsB (ns : List (Nat × FCNode)) : Nat → Nat → Nat → Bool
  | 0, r, stop => r == stop
  | fuel + 1, r, stop =>
    if r == stop then true
    else
      match findEntry ns r with
      | none => false
      | some e => descendsB ns fuel e.2.parent stop

/-- Modelled from the spec: `prune` discards every node that does not descend
from the new finalized checkpoint. -/
def pruneFC (fc : ForkChoiceStore) (fin : Checkpoint) : ForkChoiceStore :=
  { fc with nodes := fc.nodes.filter (fun e => descendsB fc.nodes fc.nodes.length e.1 fin.root) }

/-- Modelled from the spec (missing module `head_tracker`): pruning the Head
Tracker keeps only the leaves descending from the finalized checkpoint. -/
def pruneHeads (heads : List Nat) (fc : ForkChoiceStore) (fin : Checkpoint) : List Nat :=
  heads.filter (fun r => descendsB fc.nodes fc.nodes.length r fin.root)

/-- One child-edge step in the store: `b`'s node is present and its parent is
`a`. -/
def childStep (ns : List (Nat × FCNode)) (a b : Nat) : Prop :=
  ∃ e, e ∈ ns ∧ e.1 = b ∧ e.2.parent = a

/-- `b` is a descendant of `a` (zero or more child-edge steps). -/
def DescendsFrom (ns : List (Nat × FCNode)) (a b : Nat) : Prop :=
  Relation.ReflTransGen (childStep ns) a b

/-- Validator public keys, abstracted to opaque identifiers. -/
abbrev Pubkey := Nat

/-- Modelled from the spec (missing module `validator_pubkey_cache`): the
append-only index-to-pubkey registry. -/
structure ValidatorPubkeyCache where
  pubkeys : List Pubkey
deriving DecidableEq, Repr

/-- The failure of a positional pubkey lookup. -/
inductive CacheError where
  | UnknownValidator
deriving DecidableEq, Repr

/-- Modelled from the spec: `ingest(state)` scans the registry for indices
beyond the cache's current length and appends their pubkeys. -/
def ValidatorPubkeyCache.ingest (c : ValidatorPubkeyCache) (validators : List Pubkey) :
    ValidatorPubkeyCache :=
  ⟨c.pubkeys ++ validators.drop c.pubkeys.length⟩

/-- Modelled from the spec: `get(index)` is a direct positional lookup,
failing with `UnknownValidator` when the index is beyond the length. -/
def ValidatorPubkeyCache.get (c : ValidatorPubkeyCache) (i : Nat) : Except CacheError Pubkey :=
  match c.pubkeys[i]? with
  | some pk => .ok pk
  | none => .error .UnknownValidator

/-- An operation against the pubkey cache: an ingest of a validator registry,
or a read (which leaves the cache untouched). -/
inductive CacheOp where
  | ingest (validators : List Pubkey)
  | get (i : Nat)

/-- Apply one cache operation. -/
def applyCacheOp (c : ValidatorPubkeyCache) : CacheOp → ValidatorPubkeyCache
  | .ingest vs => c.ingest vs
  | .get _ => c

/-- Apply a sequence of cache operations. -/
def applyCacheOps (c : ValidatorPubkeyCache) (ops : List CacheOp) : ValidatorPubkeyCache :=
  ops.foldl applyCacheOp c

/-- The `BlockError` taxonomy of the spec. The spec's check list names no
error for a block whose slot is not strictly greater than its parent's;
`NotLaterThanParent` stands for it. -/
inductive BlockError where
  | Duplicate
  | FutureSlot
  | NotLaterThanParent
  | UnknownParent
  | WouldRevertFinalizedSlot
  | ProposerSignatureInvalid
  | StateRootMismatch
  | SignatureInvalid
deriving DecidableEq, Repr

/-- `BlockProcessingOutcome` from the spec. -/
inductive Outcome where
  | Valid (block_root : Nat) (is_new_head : Bool)
  | Invalid (e : BlockError)
deriving DecidableEq, Repr

/-- Whether an outcome is the `Valid` case. -/
def Outcome.isValid : Outcome → Bool
  | .Valid _ _ => true
  | .Invalid _ => false

/-- Modelled from the spec (missing module `partial_block_verification`): the
context the partial verifier reads — the set of already-known roots, the
known non-pruned blocks by root (an absent parent covers both the unknown and
the pruned case), the local clock and its bounded tolerance, the finalized
checkpoint's slot, the Validator Pubkey Cache and the proposer-index
derivation from the slot (committee shuffling is a black box). -/
structure VerifyContext where
  known : List Nat
  blocks : List (Nat × Block)
  clock : Nat
  tolerance : Nat
  finalizedSlot : Nat
  cache : ValidatorPubkeyCache
  proposerIndexOf : Nat → Nat

/-- The proposer-signature verdict: the proposer's pubkey must be available
in the Validator Pubkey Cache and the proposer signature must verify. -/
def proposerSigValid (ctx : VerifyContext) (b : Block) : Bool :=
  match ctx.cache.get (ctx.proposerIndexOf b.slot) with
  | .ok _ => b.proposer_sig_ok
  | .error _ => false

/-- Modelled from the spec: the partial verifier's checks, in order, each
short-circuiting on failure: not already known (Duplicate); slot not beyond
clock plus tolerance (FutureSlot); slot strictly greater than the parent's
slot; parent known and not pruned (UnknownParent — when the parent is absent
the parent-slot comparison cannot run and the parent check fires); no
conflict with the finalized checkpoint, i.e. the slot is past the finalized
slot (WouldRevertFinalizedSlot); proposer signature valid
(ProposerSignatureInvalid). Pure: no state is touched on any path. -/
def verify (ctx : VerifyContext) (b : Block) : Except BlockError Unit :=
  if ctx.known.contains (hashBlock b) then .error .Duplicate
  else if ctx.clock + ctx.tolerance < b.slot then .error .FutureSlot
  else
    match (ctx.blocks.find? (fun e => e.1 == b.parent_root)).map Prod.snd with
    | none => .error .UnknownParent
    | some p =>
      if b.slot ≤ p.slot then .error .NotLaterThanParent
      else if b.slot ≤ ctx.finalizedSlot then .error .WouldRevertFinalizedSlot
      else if proposerSigValid ctx b then .ok () else .error .ProposerSignatureInvalid

/-- Modelled from the spec: the shared chain state the Full Block Processor
operates on — Fork Choice Store, Snapshot Cache (block_root to (block,
post-state); the capacity bound and eviction are elided, claims quantify over
parents whose snapshot is present), Head Tracker leaf set, and persistent
block storage. `σ` is the state type; the transition function over it is
passed separately. -/
structure Chain (σ : Type) where
  fc : ForkChoiceStore
  snapshots : List (Nat × Block × σ)
  heads : List Nat
  storage : List (Nat × Block)
deriving DecidableEq, Repr

/-- Exact Snapshot Cache hit for a root. -/
def findSnapshot {σ : Type} (snaps : List (Nat × Block × σ)) (r : Nat) : Option (Block × σ) :=
  (snaps.find? (fun e => e.1 == r)).map Prod.snd

/-- The commit step (step 5): insert the snapshot, register the fork-choice
node with weight 0 under the parent, the parent loses leaf status and the new
block becomes a leaf, persist the block, and report whether the new block is
the new head. -/
def commitBlock {σ : Type} (ch : Chain σ) (b : Block) (post : σ) : Outcome × Chain σ :=
  let root := hashBlock b
  let ch' : Chain σ :=
    { fc := on_block ch.fc b,
      snapshots := (root, b, post) :: ch.snapshots,
      heads := root :: ch.heads.erase b.parent_root,
      storage := (root, b) :: ch.storage }
  (.Valid root (get_head ch'.fc == root), ch')

/-- Modelled from the spec (missing module `block_processing`):
`process_block` resolves the parent's post-state from the Snapshot Cache,
applies the deterministic transition, verifies the declared state root,
batch-verifies the body signatures, and only then commits: snapshot inserted,
block registered in the Fork Choice Store with weight 0 under its parent, the
parent loses leaf status and the new block becomes a leaf, and the block is
persisted. Any failure returns the chain untouched. -/
def process_block {σ : Type} (transition : σ → Block → σ) (stateRoot : σ → Nat)
    (ch : Chain σ) (b : Block) : Outcome × Chain σ :=
  match findSnapshot ch.snapshots b.parent_root with
  | none => (.Invalid .UnknownParent, ch)
  | some (_, pre) =>
    if stateRoot (transition pre b) ≠ b.state_root then (.Invalid .StateRootMismatch, ch)
    else if ¬ b.body_sigs_ok then (.Invalid .SignatureInvalid, ch)
    else commitBlock ch b (transition pre b)

/-- Modelled from the spec: pruning the chain applies `prune` to both the
Fork Choice Store and the Head Tracker. -/
def Chain.prune {σ : Type} (ch : Chain σ) (fin : Checkpoint) : Chain σ :=
  { ch with fc := pruneFC ch.fc fin, heads := pruneHeads ch.heads ch.fc fin }

end BeaconChain

/-! ## Theorems -/

namespace ValidatorDirBuilder

theorem preserves_refl (fs : FS) : Preserves fs fs :=
  fun _ hp => ⟨rfl, hp⟩

theorem preserves_trans {fs1 fs2 fs3 : FS} (h1 : Preserves fs1 fs2) (h2 : Preserves fs2 fs3) :
    Preserves fs1 fs3 := by
  intro p hp
  obtain ⟨hl1, he1⟩ := h1 p hp
  obtain ⟨hl2, he2⟩ := h2 p he1
  exact ⟨hl2.trans hl1, he2⟩

theorem preserves_add {fs : FS} {q : Path} (e : FsEntry) (hq : fs.pathExists q = false) :
    Preserves fs (fs.add q e) := by
  intro p hp
  have hpq : (q == p) = false := by
    cases hqp : (q == p) with
    | false => rfl
    | true =>
      rw [eq_of_beq hqp, hp] at hq
      simp at hq
  constructor
  · simp [FS.lookup, FS.add, List.find?, hpq]
  · simp only [FS.pathExists, FS.add, List.any_cons, Bool.or_eq_true]
    right
    simpa [FS.pathExists] using hp

theorem preserves_guardedWrite (fs : FS) (path : Path) (d : FsEntry) (mk : Path → Error) :
    Preserves fs (guardedWrite fs path d mk).1 := by
  unfold guardedWrite
  split
  · exact preserves_refl fs
  · exact preserves_add d (by simp_all)

theorem preserves_andThen {fs0 : FS} {st : FS × Option Error}
    {k : FS → FS × Except Error Path}
    (h1 : Preserves fs0 st.1)
    (h2 : ∀ fs', Preserves fs0 fs' → Preserves fs0 (k fs').1) :
    Preserves fs0 (andThen st k).1 := by
  obtain ⟨fs', o⟩ := st
  cases o with
  | none => exact h2 fs' h1
  | some e => exact h1

/-- `Builder::build` leaves every pre-existing path untouched, on every
control path, success or error. -/
theorem build_preserves (b : Builder) (fs : FS) (rng1 rng2 : Rng) :
    Preserves fs (b.build fs rng1 rng2).1 := by
  unfold Builder.build
  split
  · exact preserves_refl fs
  · split
    · exact preserves_refl fs
    · split
      · exact preserves_refl fs
      · rename_i hdir
        have hdir' : fs.pathExists b.dir = false := by
          simpa using hdir
        apply preserves_andThen
        · split
          · exact preserves_trans (preserves_add _ hdir') (preserves_guardedWrite _ _ _ _)
          · exact preserves_add _ hdir'
        · intro fs2 h2
          apply preserves_andThen
          · exact preserves_trans h2 (preserves_guardedWrite _ _ _ _)
          · intro fs3 h3
            apply preserves_andThen
            · exact preserves_trans h3 (preserves_guardedWrite _ _ _ _)
            · intro fs4 h4
              split
              · apply preserves_andThen
                · exact preserves_trans h4 (preserves_guardedWrite _ _ _ _)
                · intro fs5 h5
                  apply preserves_andThen
                  · exact preserves_trans h5 (preserves_guardedWrite _ _ _ _)
                  · intro fs6 h6
                    exact h6
              · exact h4

/-- Claim C8: for every existing path `dir`, `Builder::new(dir, password_dir)`
returns `DirectoryAlreadyExists(dir)` and constructs nothing; and `build`
re-checks the directory after the keystores have been decrypted, returning
`DirectoryAlreadyExists` with no directory or file created (the filesystem is
returned unchanged) when the directory exists at that point. -/
theorem builder_rejects_existing_dir (fs : FS) (dir pdir : Path) (b : Builder)
    (rng1 rng2 : Rng) (v w : Keystore × PlainText × Keypair)
    (hdir : fs.pathExists dir = true)
    (hv : expandKeystore b.voting_keystore rng1 = .ok v)
    (hw : expandKeystore b.withdrawal_keystore rng2 = .ok w)
    (hbdir : fs.pathExists b.dir = true) :
    Builder.new fs dir pdir = .error (.DirectoryAlreadyExists dir) ∧
    b.build fs rng1 rng2 = (fs, .error (.DirectoryAlreadyExists b.dir)) := by
  constructor
  · simp [Builder.new, hdir]
  · obtain ⟨ks, pw, kp⟩ := v
    obtain ⟨ks', pw', kp'⟩ := w
    simp [Builder.build, hv, hw, hbdir]

theorem builder_rejects_existing_dir_witness :
    (FS.mk [([PathComp.name "d"], FsEntry.dir)]).pathExists [PathComp.name "d"] = true ∧
    expandKeystore (some (⟨⟨1, 2⟩, ['x']⟩, ['x'])) ⟨⟨0, 0⟩, fun _ => 0⟩ =
      .ok (⟨⟨1, 2⟩, ['x']⟩, ['x'], ⟨1, 2⟩) ∧
    (Builder.new (FS.mk [([PathComp.name "d"], FsEntry.dir)]) [PathComp.name "d"] [] =
      .error (.DirectoryAlreadyExists [PathComp.name "d"]) ∧
    Builder.build
      { dir := [PathComp.name "d"], password_dir := [PathComp.name "p"],
        voting_keystore := some (⟨⟨1, 2⟩, ['x']⟩, ['x']),
        withdrawal_keystore := some (⟨⟨1, 2⟩, ['x']⟩, ['x']),
        store_withdrawal_keystore := true, deposit_info := none }
      (FS.mk [([PathComp.name "d"], FsEntry.dir)]) ⟨⟨0, 0⟩, fun _ => 0⟩ ⟨⟨0, 0⟩, fun _ => 0⟩ =
      (FS.mk [([PathComp.name "d"], FsEntry.dir)],
        .error (.DirectoryAlreadyExists [PathComp.name "d"]))) :=
  ⟨by decide, by rfl,
    builder_rejects_existing_dir (FS.mk [([PathComp.name "d"], FsEntry.dir)])
      [PathComp.name "d"] []
      { dir := [PathComp.name "d"], password_dir := [PathComp.name "p"],
        voting_keystore := some (⟨⟨1, 2⟩, ['x']⟩, ['x']),
        withdrawal_keystore := some (⟨⟨1, 2⟩, ['x']⟩, ['x']),
        store_withdrawal_keystore := true, deposit_info := none }
      ⟨⟨0, 0⟩, fun _ => 0⟩ ⟨⟨0, 0⟩, fun _ => 0⟩
      (⟨⟨1, 2⟩, ['x']⟩, ['x'], ⟨1, 2⟩) (⟨⟨1, 2⟩, ['x']⟩, ['x'], ⟨1, 2⟩)
      (by decide) (by rfl) (by rfl) (by decide)⟩

/-- Claim C9: each of the guarded writes — keystore, password, and the eth1
deposit-data write in `build` — rejects an existing target with its
`*AlreadyExists` error, leaving the filesystem exactly as it was; and
`Builder::build` never overwrites any pre-existing file or directory on any
control path. -/
theorem build_never_overwrites (fs : FS) (path : Path) (ks : Keystore) (pw : PlainText)
    (dd : DepositData) (b : Builder) (rng1 rng2 : Rng)
    (hex : fs.pathExists path = true) :
    write_keystore_to_file fs path ks = (fs, some (.KeystoreAlreadyExists path)) ∧
    write_password_to_file fs path pw = (fs, some (.PasswordAlreadyExists path)) ∧
    guardedWrite fs path (.file (.depositRlp dd)) Error.DepositDataAlreadyExists =
      (fs, some (.DepositDataAlreadyExists path)) ∧
    ∀ p, fs.pathExists p = true →
      (b.build fs rng1 rng2).1.lookup p = fs.lookup p ∧
      (b.build fs rng1 rng2).1.pathExists p = true := by
  refine ⟨?_, ?_, ?_, ?_⟩
  · simp [write_keystore_to_file, guardedWrite, hex]
  · simp [write_password_to_file, guardedWrite, hex]
  · simp [guardedWrite, hex]
  · exact build_preserves b fs rng1 rng2

theorem build_never_overwrites_witness :
    (FS.mk [([PathComp.name "f"], FsEntry.dir)]).pathExists [PathComp.name "f"] = true ∧
    (write_keystore_to_file (FS.mk [([PathComp.name "f"], FsEntry.dir)]) [PathComp.name "f"]
        ⟨⟨1, 2⟩, ['x']⟩ =
      (FS.mk [([PathComp.name "f"], FsEntry.dir)],
        some (.KeystoreAlreadyExists [PathComp.name "f"])) ∧
    write_password_to_file (FS.mk [([PathComp.name "f"], FsEntry.dir)]) [PathComp.name "f"]
        ['x'] =
      (FS.mk [([PathComp.name "f"], FsEntry.dir)],
        some (.PasswordAlreadyExists [PathComp.name "f"])) ∧
    guardedWrite (FS.mk [([PathComp.name "f"], FsEntry.dir)]) [PathComp.name "f"]
        (.file (.depositRlp ⟨0, 0, 0, 0⟩)) Error.DepositDataAlreadyExists =
      (FS.mk [([PathComp.name "f"], FsEntry.dir)],
        some (.DepositDataAlreadyExists [PathComp.name "f"])) ∧
    ∀ p, (FS.mk [([PathComp.name "f"], FsEntry.dir)]).pathExists p = true →
      ((Builder.mk [PathComp.name "d"] [PathComp.name "p"]
          (some (⟨⟨1, 2⟩, ['x']⟩, ['x'])) (some (⟨⟨1, 2⟩, ['x']⟩, ['x'])) true none).build
        (FS.mk [([PathComp.name "f"], FsEntry.dir)])
        ⟨⟨0, 0⟩, fun _ => 0⟩ ⟨⟨0, 0⟩, fun _ => 0⟩).1.lookup p =
        (FS.mk [([PathComp.name "f"], FsEntry.dir)]).lookup p ∧
      ((Builder.mk [PathComp.name "d"] [PathComp.name "p"]
          (some (⟨⟨1, 2⟩, ['x']⟩, ['x'])) (some (⟨⟨1, 2⟩, ['x']⟩, ['x'])) true none).build
        (FS.mk [([PathComp.name "f"], FsEntry.dir)])
        ⟨⟨0, 0⟩, fun _ => 0⟩ ⟨⟨0, 0⟩, fun _ => 0⟩).1.pathExists p = true) :=
  ⟨by decide,
    build_never_overwrites (FS.mk [([PathComp.name "f"], FsEntry.dir)]) [PathComp.name "f"]
      ⟨⟨1, 2⟩, ['x']⟩ ['x'] ⟨0, 0, 0, 0⟩
      (Builder.mk [PathComp.name "d"] [PathComp.name "p"]
        (some (⟨⟨1, 2⟩, ['x']⟩, ['x'])) (some (⟨⟨1, 2⟩, ['x']⟩, ['x'])) true none)
      ⟨⟨0, 0⟩, fun _ => 0⟩ ⟨⟨0, 0⟩, fun _ => 0⟩ (by decide)⟩

/-- Claim C10: the password generated by `random_keystore` (and used by
`build` via `expand_keystore!` whenever a keystore is not supplied) is
exactly `DEFAULT_PASSWORD_LEN = 48` characters, every character is drawn from
the 62-character `Alphanumeric` alphabet, and `62 ^ 48 > 255 ^ 32`, so the
password carries more entropy than a uniformly random 32-byte array. -/
theorem random_password_entropy (rng : Rng) :
    random_keystore rng = .ok (⟨rng.keypair, randomPassword rng⟩, randomPassword rng) ∧
    expandKeystore none rng =
      .ok (⟨rng.keypair, randomPassword rng⟩, randomPassword rng, rng.keypair) ∧
    (randomPassword rng).length = DEFAULT_PASSWORD_LEN ∧
    DEFAULT_PASSWORD_LEN = 48 ∧
    (∀ c ∈ randomPassword rng, c ∈ alphanumericChars) ∧
    alphanumericChars.length = 62 ∧
    alphanumericChars.length ^ DEFAULT_PASSWORD_LEN > 255 ^ 32 := by
  have hlen : alphanumericChars.length = 62 := by decide
  refine ⟨rfl, ?_, ?_, rfl, ?_, hlen, ?_⟩
  · simp [expandKeystore, random_keystore, Keystore.decrypt_keypair]
  · simp [randomPassword, DEFAULT_PASSWORD_LEN]
  · intro c hc
    simp only [randomPassword, List.mem_map, List.mem_range] at hc
    obtain ⟨i, _, rfl⟩ := hc
    have hi : ((rng.sample i) : Nat) < alphanumericChars.length := by
      rw [hlen]; exact (rng.sample i).isLt
    rw [List.getD_eq_getElem alphanumericChars 'a' hi]
    exact List.getElem_mem hi
  · rw [hlen]
    norm_num [DEFAULT_PASSWORD_LEN]

theorem random_password_entropy_witness :
    ('a' ∈ randomPassword ⟨⟨0, 0⟩, fun _ => 0⟩) ∧
    ('a' ∈ alphanumericChars ∧
      (randomPassword ⟨⟨0, 0⟩, fun _ => 0⟩).length = DEFAULT_PASSWORD_LEN ∧
      alphanumericChars.length ^ DEFAULT_PASSWORD_LEN > 255 ^ 32) :=
  ⟨by decide,
    (random_password_entropy ⟨⟨0, 0⟩, fun _ => 0⟩).2.2.2.2.1 'a' (by decide),
    (random_password_entropy ⟨⟨0, 0⟩, fun _ => 0⟩).2.2.1,
    (random_password_entropy ⟨⟨0, 0⟩, fun _ => 0⟩).2.2.2.2.2.2⟩

end ValidatorDirBuilder

namespace BeaconChain

theorem applyCacheOps_append (c : ValidatorPubkeyCache) (ops : List CacheOp) :
    ∃ t, (applyCacheOps c ops).pubkeys = c.pubkeys ++ t := by
  induction ops generalizing c with
  | nil => exact ⟨[], by simp [applyCacheOps]⟩
  | cons op ops ih =>
    have hstep : applyCacheOps c (op :: ops) = applyCacheOps (applyCacheOp c op) ops := rfl
    obtain ⟨t, ht⟩ := ih (applyCacheOp c op)
    cases op with
    | ingest vs =>
      refine ⟨vs.drop c.pubkeys.length ++ t, ?_⟩
      rw [hstep, ht]
      simp [applyCacheOp, ValidatorPubkeyCache.ingest]
    | get i =>
      refine ⟨t, ?_⟩
      rw [hstep, ht]
      rfl

/-- Claim C5: the Validator Pubkey Cache is append-only: across any sequence
of ingest/get operations the length never decreases, `get i` answers the same
pubkey for every `i < length` on every call (entries are never reordered,
removed or mutated), and `get` fails with `UnknownValidator` exactly when the
index is at or beyond the length. -/
theorem pubkey_cache_append_only (c : ValidatorPubkeyCache) (ops : List CacheOp) :
    c.pubkeys.length ≤ (applyCacheOps c ops).pubkeys.length ∧
    (∀ i, i < c.pubkeys.length → (applyCacheOps c ops).pubkeys[i]? = c.pubkeys[i]?) ∧
    (∀ i, i < c.pubkeys.length → (applyCacheOps c ops).get i = c.get i) ∧
    (∀ (c' : ValidatorPubkeyCache) (i : Nat),
      (∀ pk, c'.get i = .ok pk ↔ c'.pubkeys[i]? = some pk) ∧
      (c'.get i = .error .UnknownValidator ↔ c'.pubkeys.length ≤ i)) := by
  obtain ⟨t, ht⟩ := applyCacheOps_append c ops
  have hstable : ∀ i, i < c.pubkeys.length →
      (applyCacheOps c ops).pubkeys[i]? = c.pubkeys[i]? := by
    intro i hi
    rw [ht, List.getElem?_append_left hi]
  refine ⟨by rw [ht]; simp, hstable, ?_, ?_⟩
  · intro i hi
    unfold ValidatorPubkeyCache.get
    rw [hstable i hi]
  · intro c' i
    constructor
    · intro pk
      unfold ValidatorPubkeyCache.get
      cases h : c'.pubkeys[i]? <;> simp [h]
    · unfold ValidatorPubkeyCache.get
      cases h : c'.pubkeys[i]? with
      | none =>
        simp only [h]
        rw [← List.getElem?_eq_none_iff (l := c'.pubkeys) (n := i), h]
        simp
      | some pk =>
        have hi : i < c'.pubkeys.length := by
          by_contra hge
          rw [List.getElem?_eq_none_iff.mpr (by omega)] at h
          cases h
        simp [h]
        omega

theorem pubkey_cache_append_only_witness :
    (0 < (ValidatorPubkeyCache.mk [10, 11]).pubkeys.length) ∧
    ((applyCacheOps (ValidatorPubkeyCache.mk [10, 11])
        [.ingest [10, 11, 12], .get 0]).get 0 = (ValidatorPubkeyCache.mk [10, 11]).get 0 ∧
     (ValidatorPubkeyCache.mk [10, 11]).pubkeys.length ≤
       (applyCacheOps (ValidatorPubkeyCache.mk [10, 11]) [.ingest [10, 11, 12], .get 0]).pubkeys.length) :=
  ⟨by decide,
    (pubkey_cache_append_only (ValidatorPubkeyCache.mk [10, 11])
      [.ingest [10, 11, 12], .get 0]).2.2.1 0 (by decide),
    (pubkey_cache_append_only (ValidatorPubkeyCache.mk [10, 11])
      [.ingest [10, 11, 12], .get 0]).1⟩

theorem find?_map_update {v newEp : Nat} {newTg : Nat} :
    ∀ (l : List (Nat × Nat × Nat)), (l.find? (fun e => e.1 == v)).isSome = true →
      (l.map (fun ent => if ent.1 == v then (v, newEp, newTg) else ent)).find?
        (fun e => e.1 == v) = some (v, newEp, newTg) := by
  intro l
  induction l with
  | nil => intro h; simp [List.find?] at h
  | cons ent l ih =>
    intro h
    by_cases hv : (ent.1 == v) = true
    · simp only [List.map_cons, hv, if_true, List.find?]
      simp
    · simp only [List.map_cons, hv, if_false, Bool.false_eq_true, ite_false, List.find?,
        hv] at h ⊢
      exact ih h

/-- Claim C4: an attestation overwrites the validator's recorded latest
message only when its epoch is strictly greater than the recorded one; an
attestation of an equal (or smaller) epoch leaves the store unchanged, and
the recorded epoch is monotonically non-decreasing. -/
theorem on_attestation_monotonic (fc : ForkChoiceStore) (a : Attestation) (e : Nat) (t : Nat)
    (hprev : latestFor fc a.validator = some (e, t)) :
    (a.epoch ≤ e → on_attestation fc a = fc) ∧
    (e < a.epoch →
      latestFor (on_attestation fc a) a.validator = some (a.epoch, a.target)) ∧
    (∀ e' t', latestFor (on_attestation fc a) a.validator = some (e', t') → e ≤ e') := by
  have hsome : (fc.latest.find? (fun ent => ent.1 == a.validator)).isSome = true := by
    unfold latestFor at hprev
    cases h : fc.latest.find? (fun ent => ent.1 == a.validator) with
    | none => rw [h] at hprev; cases hprev
    | some x => rfl
  have hover : e < a.epoch →
      latestFor (on_attestation fc a) a.validator = some (a.epoch, a.target) := by
    intro hlt
    unfold on_attestation
    rw [hprev]
    simp only [hlt, if_true]
    unfold latestFor
    rw [find?_map_update fc.latest hsome]
    rfl
  refine ⟨?_, hover, ?_⟩
  · intro hle
    unfold on_attestation
    rw [hprev]
    simp only [if_neg (by omega : ¬ e < a.epoch)]
  · intro e' t' h'
    by_cases hlt : e < a.epoch
    · rw [hover hlt] at h'
      have : e' = a.epoch := by cases h'; rfl
      omega
    · unfold on_attestation at h'
      rw [hprev] at h'
      simp only [if_neg hlt] at h'
      rw [hprev] at h'
      have : e' = e := by cases h'; rfl
      omega

theorem on_attestation_monotonic_witness :
    (latestFor ⟨[(0, ⟨0, 0⟩)], ⟨0, 0⟩, [(7, 3, 100)]⟩ 7 = some (3, 100)) ∧
    (on_attestation ⟨[(0, ⟨0, 0⟩)], ⟨0, 0⟩, [(7, 3, 100)]⟩ ⟨7, 3, 200, 1⟩ =
        ⟨[(0, ⟨0, 0⟩)], ⟨0, 0⟩, [(7, 3, 100)]⟩ ∧
      latestFor (on_attestation ⟨[(0, ⟨0, 0⟩)], ⟨0, 0⟩, [(7, 3, 100)]⟩ ⟨7, 4, 200, 1⟩) 7 =
        some (4, 200)) :=
  ⟨by decide,
    (on_attestation_monotonic ⟨[(0, ⟨0, 0⟩)], ⟨0, 0⟩, [(7, 3, 100)]⟩ ⟨7, 3, 200, 1⟩ 3 100
      (by decide)).1 (by decide),
    (on_attestation_monotonic ⟨[(0, ⟨0, 0⟩)], ⟨0, 0⟩, [(7, 3, 100)]⟩ ⟨7, 4, 200, 1⟩ 3 100
      (by decide)).2.1 (by decide)⟩

/-- Claim C7: whenever `process_block` returns Invalid — at pre-state
resolution, transition application, state-root verification or batch
signature verification — the shared state (Fork Choice Store, Snapshot
Cache, Head Tracker, storage) is returned exactly as it was; only the commit
step of a Valid outcome mutates it, inserting the snapshot, registering the
fork-choice node, updating the leaf set and persisting the block. -/
theorem process_block_atomic {σ : Type} (transition : σ → Block → σ) (stateRoot : σ → Nat)
    (ch : Chain σ) (b : Block) :
    (∀ e, (process_block transition stateRoot ch b).1 = .Invalid e →
      (process_block transition stateRoot ch b).2 = ch) ∧
    ((process_block transition stateRoot ch b).1.isValid = true →
      ∃ post, process_block transition stateRoot ch b = commitBlock ch b post) := by
  unfold process_block
  cases hsnap : findSnapshot ch.snapshots b.parent_root with
  | none => exact ⟨fun _ _ => rfl, fun h => by simp [Outcome.isValid] at h⟩
  | some pr =>
    obtain ⟨pb, pre⟩ := pr
    dsimp only
    by_cases hroot : stateRoot (transition pre b) ≠ b.state_root
    · rw [if_pos hroot]
      exact ⟨fun _ _ => rfl, fun h => by simp [Outcome.isValid] at h⟩
    · rw [if_neg hroot]
      by_cases hsig : ¬ b.body_sigs_ok = true
      · rw [if_pos hsig]
        exact ⟨fun _ _ => rfl, fun h => by simp [Outcome.isValid] at h⟩
      · rw [if_neg hsig]
        refine ⟨fun e h => ?_, fun _ => ⟨transition pre b, rfl⟩⟩
        simp [commitBlock] at h

theorem process_block_atomic_witness :
    ((process_block (fun (s : Nat) (_ : Block) => s) (fun s => s)
        ⟨⟨[(0, ⟨0, 0⟩)], ⟨0, 0⟩, []⟩, [(0, ⟨0, 0, 0, true, true⟩, 5)], [0], []⟩
        ⟨1, 0, 9, true, true⟩).1 = .Invalid .StateRootMismatch) ∧
    (process_block (fun (s : Nat) (_ : Block) => s) (fun s => s)
        ⟨⟨[(0, ⟨0, 0⟩)], ⟨0, 0⟩, []⟩, [(0, ⟨0, 0, 0, true, true⟩, 5)], [0], []⟩
        ⟨1, 0, 9, true, true⟩).2 =
      ⟨⟨[(0, ⟨0, 0⟩)], ⟨0, 0⟩, []⟩, [(0, ⟨0, 0, 0, true, true⟩, 5)], [0], []⟩ :=
  ⟨by decide,
    (process_block_atomic (fun (s : Nat) (_ : Block) => s) (fun s => s)
      ⟨⟨[(0, ⟨0, 0⟩)], ⟨0, 0⟩, []⟩, [(0, ⟨0, 0, 0, true, true⟩, 5)], [0], []⟩
      ⟨1, 0, 9, true, true⟩).1 .StateRootMismatch (by decide)⟩

/-- Claim C1 as frozen is falsified at a concrete input: the parent's
snapshot is present and the transition's state root equals the block's
declared state_root, yet `process_block` returns Invalid (SignatureInvalid)
because batch signature verification fails, so Valid does not hold whenever
the roots match. -/
theorem process_block_valid_iff_counterexample :
    findSnapshot [((0 : Nat), (⟨0, 0, 0, true, true⟩ : Block), (5 : Nat))] 0 =
      some (⟨0, 0, 0, true, true⟩, 5) ∧
    (fun (s : Nat) (_ : Block) => s) 5 ⟨1, 0, 5, true, false⟩ = 5 ∧
    (⟨1, 0, 5, true, false⟩ : Block).state_root = 5 ∧
    (process_block (fun (s : Nat) (_ : Block) => s) (fun s => s)
        ⟨⟨[(0, ⟨0, 0⟩)], ⟨0, 0⟩, []⟩, [(0, ⟨0, 0, 0, true, true⟩, 5)], [0], []⟩
        ⟨1, 0, 5, true, false⟩).1 = .Invalid .SignatureInvalid := by
  exact ⟨by decide, by decide, by decide, by decide⟩

/-- Claim C1 (amended): for a parent already accepted (its snapshot is in
the cache with post-state `ps`) and a block `b` with `parent_root` pointing
at it, provided the block's batch signature verification succeeds,
`process_block` returns Valid iff the deterministic transition applied to
`ps` and `b` yields a state whose root equals `b.state_root`; on mismatch it
returns Invalid (StateRootMismatch) and the chain is returned unchanged, the
candidate state discarded. -/
theorem process_block_valid_iff {σ : Type} (transition : σ → Block → σ)
    (stateRoot : σ → Nat) (ch : Chain σ) (b : Block) (pb : Block) (ps : σ)
    (hsnap : findSnapshot ch.snapshots b.parent_root = some (pb, ps))
    (hsig : b.body_sigs_ok = true) :
    ((process_block transition stateRoot ch b).1.isValid = true ↔
      stateRoot (transition ps b) = b.state_root) ∧
    (stateRoot (transition ps b) ≠ b.state_root →
      process_block transition stateRoot ch b = (.Invalid .StateRootMismatch, ch)) := by
  unfold process_block
  rw [hsnap]
  dsimp only
  constructor
  · constructor
    · intro h
      by_contra hne
      rw [if_pos hne] at h
      simp [Outcome.isValid] at h
    · intro heq
      rw [if_neg (by simpa using heq), if_neg (by simp [hsig])]
      simp [commitBlock, Outcome.isValid]
  · intro hne
    rw [if_pos hne]

theorem process_block_valid_iff_witness :
    (findSnapshot [((0 : Nat), (⟨0, 0, 0, true, true⟩ : Block), (5 : Nat))] 0 =
      some (⟨0, 0, 0, true, true⟩, 5) ∧ (⟨1, 0, 5, true, true⟩ : Block).body_sigs_ok = true) ∧
    ((process_block (fun (s : Nat) (_ : Block) => s) (fun s => s)
        ⟨⟨[(0, ⟨0, 0⟩)], ⟨0, 0⟩, []⟩, [(0, ⟨0, 0, 0, true, true⟩, 5)], [0], []⟩
        ⟨1, 0, 5, true, true⟩).1.isValid = true ↔
      (fun (s : Nat) => s) ((fun (s : Nat) (_ : Block) => s) 5 ⟨1, 0, 5, true, true⟩) =
        (⟨1, 0, 5, true, true⟩ : Block).state_root) :=
  ⟨⟨by decide, by decide⟩,
    (process_block_valid_iff (fun (s : Nat) (_ : Block) => s) (fun s => s)
      ⟨⟨[(0, ⟨0, 0⟩)], ⟨0, 0⟩, []⟩, [(0, ⟨0, 0, 0, true, true⟩, 5)], [0], []⟩
      ⟨1, 0, 5, true, true⟩ ⟨0, 0, 0, true, true⟩ 5 (by decide) (by decide)).1⟩

/-- Claim C6: the partial verifier performs its checks in exactly the stated
order, short-circuiting at the first failing check with that check's error:
already known (Duplicate); slot beyond clock plus tolerance (FutureSlot);
slot not strictly greater than the parent's; unknown or pruned parent
(UnknownParent); conflict with the finalized checkpoint
(WouldRevertFinalizedSlot); invalid proposer signature
(ProposerSignatureInvalid); all checks passing yields ok. `verify` is a pure
function of the context, so no state is mutated and no partial state is
retained on any path. -/
theorem verify_check_order (ctx : VerifyContext) (b : Block) :
    (ctx.known.contains (hashBlock b) = true → verify ctx b = .error .Duplicate) ∧
    (ctx.known.contains (hashBlock b) = false → ctx.clock + ctx.tolerance < b.slot →
      verify ctx b = .error .FutureSlot) ∧
    (ctx.known.contains (hashBlock b) = false → ¬ ctx.clock + ctx.tolerance < b.slot →
      (ctx.blocks.find? (fun e => e.1 == b.parent_root)).map Prod.snd = none →
      verify ctx b = .error .UnknownParent) ∧
    (∀ p, ctx.known.contains (hashBlock b) = false → ¬ ctx.clock + ctx.tolerance < b.slot →
      (ctx.blocks.find? (fun e => e.1 == b.parent_root)).map Prod.snd = some p →
      b.slot ≤ p.slot → verify ctx b = .error .NotLaterThanParent) ∧
    (∀ p, ctx.known.contains (hashBlock b) = false → ¬ ctx.clock + ctx.tolerance < b.slot →
      (ctx.blocks.find? (fun e => e.1 == b.parent_root)).map Prod.snd = some p →
      p.slot < b.slot → b.slot ≤ ctx.finalizedSlot →
      verify ctx b = .error .WouldRevertFinalizedSlot) ∧
    (∀ p, ctx.known.contains (hashBlock b) = false → ¬ ctx.clock + ctx.tolerance < b.slot →
      (ctx.blocks.find? (fun e => e.1 == b.parent_root)).map Prod.snd = some p →
      p.slot < b.slot → ctx.finalizedSlot < b.slot → proposerSigValid ctx b = false →
      verify ctx b = .error .ProposerSignatureInvalid) ∧
    (∀ p, ctx.known.contains (hashBlock b) = false → ¬ ctx.clock + ctx.tolerance < b.slot →
      (ctx.blocks.find? (fun e => e.1 == b.parent_root)).map Prod.snd = some p →
      p.slot < b.slot → ctx.finalizedSlot < b.slot → proposerSigValid ctx b = true →
      verify ctx b = .ok ()) := by
  refine ⟨?_, ?_, ?_, ?_, ?_, ?_, ?_⟩
  · intro h1
    rw [verify, if_pos h1]
  · intro h1 h2
    rw [verify, if_neg (by rw [h1]; simp), if_pos h2]
  · intro h1 h2 h3
    rw [verify, if_neg (by rw [h1]; simp), if_neg h2, h3]
  · intro p h1 h2 h3 h4
    rw [verify, if_neg (by rw [h1]; simp), if_neg h2, h3]
    dsimp only
    rw [if_pos h4]
  · intro p h1 h2 h3 h4 h5
    rw [verify, if_neg (by rw [h1]; simp), if_neg h2, h3]
    dsimp only
    rw [if_neg (by omega), if_pos h5]
  · intro p h1 h2 h3 h4 h5 h6
    rw [verify, if_neg (by rw [h1]; simp), if_neg h2, h3]
    dsimp only
    rw [if_neg (by omega), if_neg (by omega), h6]
    rfl
  · intro p h1 h2 h3 h4 h5 h6
    rw [verify, if_neg (by rw [h1]; simp), if_neg h2, h3]
    dsimp only
    rw [if_neg (by omega), if_neg (by omega), h6]
    rfl

theorem verify_check_order_witness :
    ((⟨[], [(0, ⟨0, 0, 0, true, true⟩)], 10, 2, 0, ⟨[5]⟩, fun _ => 0⟩
        : VerifyContext).known.contains (hashBlock ⟨1, 0, 7, true, true⟩) = false ∧
      ¬ (10 + 2 < 1) ∧
      ((⟨[], [(0, ⟨0, 0, 0, true, true⟩)], 10, 2, 0, ⟨[5]⟩, fun _ => 0⟩
        : VerifyContext).blocks.find?
          (fun e => e.1 == (⟨1, 0, 7, true, true⟩ : Block).parent_root)).map Prod.snd =
        some ⟨0, 0, 0, true, true⟩ ∧
      (0 : Nat) < 1 ∧ (0 : Nat) < 1 ∧
      proposerSigValid ⟨[], [(0, ⟨0, 0, 0, true, true⟩)], 10, 2, 0, ⟨[5]⟩, fun _ => 0⟩
        ⟨1, 0, 7, true, true⟩ = true) ∧
    verify ⟨[], [(0, ⟨0, 0, 0, true, true⟩)], 10, 2, 0, ⟨[5]⟩, fun _ => 0⟩
      ⟨1, 0, 7, true, true⟩ = .ok () :=
  ⟨⟨by decide, by decide, by decide, by decide, by decide, by decide⟩,
    (verify_check_order ⟨[], [(0, ⟨0, 0, 0, true, true⟩)], 10, 2, 0, ⟨[5]⟩, fun _ => 0⟩
      ⟨1, 0, 7, true, true⟩).2.2.2.2.2.2 ⟨0, 0, 0, true, true⟩
      (by decide) (by decide) (by decide) (by decide) (by decide) (by decide)⟩

theorem foldl_chooseStep_mem (l : List (Nat × FCNode)) :
    ∀ (acc : Option (Nat × FCNode)) (c : Nat × FCNode),
      l.foldl chooseStep acc = some c → acc = some c ∨ c ∈ l := by
  induction l with
  | nil => intro acc c h; exact Or.inl h
  | cons x xs ih =>
    intro acc c h
    rcases ih (chooseStep acc x) c h with hacc | hmem
    · cases acc with
      | none =>
        simp only [chooseStep] at hacc
        injection hacc with h'
        exact Or.inr (by rw [← h']; exact List.mem_cons_self x xs)
      | some a =>
        simp only [chooseStep] at hacc
        by_cases hb : betterNode x a = true
        · rw [if_pos hb] at hacc
          injection hacc with h'
          exact Or.inr (by rw [← h']; exact List.mem_cons_self x xs)
        · rw [if_neg hb] at hacc
          exact Or.inl hacc
    · exact Or.inr (List.mem_cons_of_mem x hmem)

theorem selectBest_mem {l : List (Nat × FCNode)} {c : Nat × FCNode}
    (h : selectBest l = some c) : c ∈ l := by
  rcases foldl_chooseStep_mem l none c h with h' | h'
  · exact Option.noConfusion h'
  · exact h'

theorem childrenOf_mem {ns : List (Nat × FCNode)} {r : Nat} {c : Nat × FCNode}
    (h : c ∈ childrenOf ns r) : c ∈ ns ∧ c.2.parent = r := by
  have h' := List.mem_filter.mp h
  exact ⟨h'.1, by simpa using h'.2⟩

theorem headFrom_descends (ns : List (Nat × FCNode)) :
    ∀ (fuel : Nat) (r : Nat), DescendsFrom ns r (headFrom ns fuel r) := by
  intro fuel
  induction fuel with
  | zero => intro r; exact Relation.ReflTransGen.refl
  | succ n ih =>
    intro r
    simp only [headFrom]
    split
    · exact Relation.ReflTransGen.refl
    · rename_i c hsel
      obtain ⟨hmem, hpar⟩ := childrenOf_mem (selectBest_mem hsel)
      exact Relation.ReflTransGen.head ⟨c, hmem, rfl, hpar⟩ (ih c.1)

theorem headFrom_pruned_descends (fc : ForkChoiceStore) (fin : Checkpoint) :
    ∀ (fuel : Nat) (r : Nat),
      descendsB fc.nodes fc.nodes.length r fin.root = true →
      descendsB fc.nodes fc.nodes.length (headFrom (pruneFC fc fin).nodes fuel r) fin.root
        = true := by
  intro fuel
  induction fuel with
  | zero => intro r hr; exact hr
  | succ n ih =>
    intro r hr
    simp only [headFrom]
    split
    · exact hr
    · rename_i c hsel
      have hmem := (childrenOf_mem (selectBest_mem hsel)).1
      simp only [pruneFC] at hmem
      exact ih c.1 ((List.mem_filter.mp hmem).2)

/-- Claim C3: `get_head` always returns a descendant (by child edges) of the
current justified checkpoint; `prune(finalized)` keeps in the Fork Choice
Store and in the Head Tracker only roots descending from the finalized
checkpoint; and — as long as the justified checkpoint itself descends from
the finalized one — `get_head` on the pruned store returns a root that still
descends from the finalized checkpoint, hence a non-pruned root: every node
of the original store bearing that root survives the prune. -/
theorem get_head_descends_and_prune_safe {σ : Type} (ch : Chain σ) (fin : Checkpoint) :
    DescendsFrom ch.fc.nodes ch.fc.justified.root (get_head ch.fc) ∧
    (∀ e ∈ (ch.prune fin).fc.nodes,
      descendsB ch.fc.nodes ch.fc.nodes.length e.1 fin.root = true) ∧
    (∀ r ∈ (ch.prune fin).heads,
      descendsB ch.fc.nodes ch.fc.nodes.length r fin.root = true) ∧
    (descendsB ch.fc.nodes ch.fc.nodes.length ch.fc.justified.root fin.root = true →
      descendsB ch.fc.nodes ch.fc.nodes.length (get_head (ch.prune fin).fc) fin.root = true ∧
      ∀ e ∈ ch.fc.nodes, e.1 = get_head (ch.prune fin).fc → e ∈ (ch.prune fin).fc.nodes) := by
  refine ⟨headFrom_descends _ _ _, ?_, ?_, ?_⟩
  · intro e he
    simp only [Chain.prune, pruneFC] at he
    exact (List.mem_filter.mp he).2
  · intro r hr
    simp only [Chain.prune, pruneHeads] at hr
    exact (List.mem_filter.mp hr).2
  · intro hj
    have hhead : descendsB ch.fc.nodes ch.fc.nodes.length (get_head (ch.prune fin).fc)
        fin.root = true := by
      have h := headFrom_pruned_descends ch.fc fin (pruneFC ch.fc fin).nodes.length
        ch.fc.justified.root hj
      exact h
    refine ⟨hhead, ?_⟩
    intro e he heq
    simp only [Chain.prune, pruneFC]
    exact List.mem_filter.mpr ⟨he, by rw [heq]; exact hhead⟩

theorem get_head_descends_and_prune_safe_witness :
    (descendsB [(1, ⟨0, 0⟩), (2, ⟨1, 0⟩), (3, ⟨0, 0⟩)] 3 1 1 = true) ∧
    descendsB [(1, ⟨0, 0⟩), (2, ⟨1, 0⟩), (3, ⟨0, 0⟩)] 3
      (get_head ((⟨⟨[(1, ⟨0, 0⟩), (2, ⟨1, 0⟩), (3, ⟨0, 0⟩)], ⟨0, 1⟩, []⟩, [], [2, 3], []⟩
        : Chain Nat).prune ⟨0, 1⟩).fc) 1 = true :=
  ⟨by decide,
    ((get_head_descends_and_prune_safe
      (⟨⟨[(1, ⟨0, 0⟩), (2, ⟨1, 0⟩), (3, ⟨0, 0⟩)], ⟨0, 1⟩, []⟩, [], [2, 3], []⟩ : Chain Nat)
      ⟨0, 1⟩).2.2.2 (by decide)).1⟩

theorem betterNode_iff (x y : Nat × FCNode) :
    betterNode x y = true ↔
      y.2.weight < x.2.weight ∨ (x.2.weight = y.2.weight ∧ x.1 < y.1) := by
  simp [betterNode]

theorem betterNode_false_iff (x y : Nat × FCNode) :
    betterNode x y = false ↔
      ¬ (y.2.weight < x.2.weight ∨ (x.2.weight = y.2.weight ∧ x.1 < y.1)) := by
  rw [← betterNode_iff]
  cases h : betterNode x y <;> simp

theorem chooseStep_none (e : Nat × FCNode) : chooseStep none e = some e := rfl

theorem chooseStep_some (a e : Nat × FCNode) :
    chooseStep (some a) e = if betterNode e a = true then some e else some a := rfl

theorem chooseStep_swap {x y : Nat × FCNode} (hxy : x.1 ≠ y.1) :
    (if betterNode y x = true then some y else some x) =
    (if betterNode x y = true then some x else some y) := by
  by_cases h1 : betterNode y x = true <;> by_cases h2 : betterNode x y = true
  · rw [betterNode_iff] at h1 h2
    omega
  · rw [if_pos h1, if_neg h2]
  · rw [if_neg h1, if_pos h2]
  · rw [Bool.not_eq_true, betterNode_false_iff] at h1 h2
    omega

theorem chooseStep_comm {x y : Nat × FCNode} (hxy : x.1 ≠ y.1)
    (z : Option (Nat × FCNode)) :
    chooseStep (chooseStep z x) y = chooseStep (chooseStep z y) x := by
  cases z with
  | none =>
    rw [chooseStep_none, chooseStep_none, chooseStep_some, chooseStep_some]
    exact chooseStep_swap hxy
  | some a =>
    rw [chooseStep_some a x, chooseStep_some a y]
    by_cases hxa : betterNode x a = true <;> by_cases hya : betterNode y a = true
    · rw [if_pos hxa, if_pos hya, chooseStep_some, chooseStep_some]
      exact chooseStep_swap hxy
    · rw [if_pos hxa, if_neg hya, chooseStep_some, chooseStep_some, if_pos hxa]
      have hyx : betterNode y x = false := by
        rw [betterNode_false_iff]
        rw [betterNode_iff] at hxa
        rw [Bool.not_eq_true, betterNode_false_iff] at hya
        omega
      rw [hyx]
      simp
    · rw [if_neg hxa, if_pos hya, chooseStep_some, chooseStep_some, if_pos hya]
      have hxy' : betterNode x y = false := by
        rw [betterNode_false_iff]
        rw [betterNode_iff] at hya
        rw [Bool.not_eq_true, betterNode_false_iff] at hxa
        omega
      rw [hxy']
      simp
    · rw [if_neg hxa, if_neg hya, chooseStep_some, chooseStep_some, if_neg hxa, if_neg hya]

theorem selectBest_perm {l₁ l₂ : List (Nat × FCNode)} (h : l₁.Perm l₂)
    (nd : (l₁.map Prod.fst).Nodup) : selectBest l₁ = selectBest l₂ := by
  unfold selectBest
  refine h.foldl_eq' ?_ none
  intro x hx y hy z
  by_cases hxy : x = y
  · rw [hxy]
  · exact chooseStep_comm (fun hk => hxy (List.inj_on_of_nodup_map nd hx hy hk)) z

theorem childrenOf_nodup {ns : List (Nat × FCNode)} {r : Nat}
    (nd : (ns.map Prod.fst).Nodup) : ((childrenOf ns r).map Prod.fst).Nodup :=
  List.Nodup.sublist ((List.filter_sublist ns).map Prod.fst) nd

theorem headFrom_perm {ns₁ ns₂ : List (Nat × FCNode)} (h : ns₁.Perm ns₂)
    (nd : (ns₁.map Prod.fst).Nodup) :
    ∀ (fuel : Nat) (r : Nat), headFrom ns₁ fuel r = headFrom ns₂ fuel r := by
  intro fuel
  induction fuel with
  | zero => intro r; rfl
  | succ n ih =>
    intro r
    simp only [headFrom]
    have hch : (childrenOf ns₁ r).Perm (childrenOf ns₂ r) := h.filter _
    rw [selectBest_perm hch (childrenOf_nodup nd)]
    cases selectBest (childrenOf ns₂ r) with
    | none => rfl
    | some c => exact ih c.1

theorem get_head_congr {fc₁ fc₂ : ForkChoiceStore} (hn : fc₁.nodes.Perm fc₂.nodes)
    (hj : fc₁.justified = fc₂.justified) (nd : (fc₁.nodes.map Prod.fst).Nodup) :
    get_head fc₁ = get_head fc₂ := by
  unfold get_head
  rw [hj, hn.length_eq]
  exact headFrom_perm hn nd fc₂.nodes.length fc₂.justified.root

theorem find?_key_perm {β : Type} {l₁ l₂ : List (Nat × β)} (h : l₁.Perm l₂)
    (nd : (l₁.map Prod.fst).Nodup) (r : Nat) :
    l₁.find? (fun e => e.1 == r) = l₂.find? (fun e => e.1 == r) := by
  cases hf : l₁.find? (fun e => e.1 == r) with
  | none =>
    rw [List.find?_eq_none] at hf
    symm
    rw [List.find?_eq_none]
    intro x hx
    exact hf x (h.mem_iff.mpr hx)
  | some e =>
    have he1 : e ∈ l₁ := List.mem_of_find?_eq_some hf
    have hpe := List.find?_some hf
    cases hf2 : l₂.find? (fun e => e.1 == r) with
    | none =>
      rw [List.find?_eq_none] at hf2
      exact absurd hpe (hf2 e (h.subset he1))
    | some e' =>
      have he'1 : e' ∈ l₁ := h.symm.subset (List.mem_of_find?_eq_some hf2)
      have hpe' := List.find?_some hf2
      have heq : e = e' := List.inj_on_of_nodup_map nd he1 he'1
        (by simp only [beq_iff_eq] at hpe hpe'; rw [hpe, hpe'])
      rw [heq]

theorem findEntry_congr {ns₁ ns₂ : List (Nat × FCNode)} (h : ns₁.Perm ns₂)
    (nd : (ns₁.map Prod.fst).Nodup) (r : Nat) : findEntry ns₁ r = findEntry ns₂ r :=
  find?_key_perm h nd r

theorem ancestorsUpTo_congr {ns₁ ns₂ : List (Nat × FCNode)} (h : ns₁.Perm ns₂)
    (nd : (ns₁.map Prod.fst).Nodup) :
    ∀ (fuel : Nat) (r stop : Nat),
      ancestorsUpTo ns₁ fuel r stop = ancestorsUpTo ns₂ fuel r stop := by
  intro fuel
  induction fuel with
  | zero => intro r stop; rfl
  | succ n ih =>
    intro r stop
    simp only [ancestorsUpTo]
    by_cases hstop : (r == stop) = true
    · rw [if_pos hstop, if_pos hstop]
    · rw [if_neg hstop, if_neg hstop, findEntry_congr h nd r]
      cases findEntry ns₂ r with
      | none => rfl
      | some e =>
        dsimp only
        rw [ih]

theorem map_fst_addWeight (ns : List (Nat × FCNode)) (t : List Nat) (amt : Nat) :
    (addWeight ns t amt).map Prod.fst = ns.map Prod.fst := by
  induction ns with
  | nil => rfl
  | cons e ns ih =>
    simp only [addWeight, List.map_cons] at ih ⊢
    rw [ih]
    congr 1
    split <;> rfl

theorem map_fst_subWeight (ns : List (Nat × FCNode)) (t : List Nat) (amt : Nat) :
    (subWeight ns t amt).map Prod.fst = ns.map Prod.fst := by
  induction ns with
  | nil => rfl
  | cons e ns ih =>
    simp only [subWeight, List.map_cons] at ih ⊢
    rw [ih]
    congr 1
    split <;> rfl

theorem on_attestation_congr {fc₁ fc₂ : ForkChoiceStore} (a : Attestation)
    (hn : fc₁.nodes.Perm fc₂.nodes) (hj : fc₁.justified = fc₂.justified)
    (hl : fc₁.latest = fc₂.latest) (nd : (fc₁.nodes.map Prod.fst).Nodup) :
    (on_attestation fc₁ a).nodes.Perm (on_attestation fc₂ a).nodes ∧
    (on_attestation fc₁ a).justified = (on_attestation fc₂ a).justified ∧
    (on_attestation fc₁ a).latest = (on_attestation fc₂ a).latest ∧
    ((on_attestation fc₁ a).nodes.map Prod.fst).Nodup := by
  have hlf : latestFor fc₁ a.validator = latestFor fc₂ a.validator := by
    unfold latestFor; rw [hl]
  have hlen : fc₁.nodes.length = fc₂.nodes.length := hn.length_eq
  have hanc : ∀ r, ancestorsUpTo fc₁.nodes fc₁.nodes.length r fc₁.justified.root =
      ancestorsUpTo fc₂.nodes fc₂.nodes.length r fc₂.justified.root := by
    intro r
    rw [← hlen, ← hj]
    exact ancestorsUpTo_congr hn nd fc₁.nodes.length r fc₁.justified.root
  unfold on_attestation
  rw [hlf]
  cases hcase : latestFor fc₂ a.validator with
  | none =>
    dsimp only
    refine ⟨?_, hj, by rw [hl], ?_⟩
    · rw [hanc a.target]
      exact hn.map _
    · rw [map_fst_addWeight]
      exact nd
  | some p =>
    obtain ⟨e, t⟩ := p
    dsimp only
    by_cases hlt : e < a.epoch
    · simp only [if_pos hlt]
      refine ⟨?_, hj, by rw [hl], ?_⟩
      · rw [hanc t, hanc a.target]
        exact (hn.map _).map _
      · rw [map_fst_addWeight, map_fst_subWeight]
        exact nd
    · simp only [if_neg hlt]
      exact ⟨hn, hj, hl, nd⟩

theorem feedAtts_congr (atts : List Attestation) :
    ∀ {fc₁ fc₂ : ForkChoiceStore}, fc₁.nodes.Perm fc₂.nodes →
      fc₁.justified = fc₂.justified → fc₁.latest = fc₂.latest →
      (fc₁.nodes.map Prod.fst).Nodup →
      (feedAtts fc₁ atts).nodes.Perm (feedAtts fc₂ atts).nodes ∧
      (feedAtts fc₁ atts).justified = (feedAtts fc₂ atts).justified ∧
      (feedAtts fc₁ atts).latest = (feedAtts fc₂ atts).latest ∧
      ((feedAtts fc₁ atts).nodes.map Prod.fst).Nodup := by
  induction atts with
  | nil => intro fc₁ fc₂ hn hj hl nd; exact ⟨hn, hj, hl, nd⟩
  | cons a atts ih =>
    intro fc₁ fc₂ hn hj hl nd
    obtain ⟨hn', hj', hl', nd'⟩ := on_attestation_congr a hn hj hl nd
    exact ih hn' hj' hl' nd'

theorem feedBlocks_state (fc : ForkChoiceStore) (bs : List Block) :
    (feedBlocks fc bs).nodes =
      (bs.map (fun b => (hashBlock b, ⟨b.parent_root, 0⟩))).reverse ++ fc.nodes ∧
    (feedBlocks fc bs).justified = fc.justified ∧
    (feedBlocks fc bs).latest = fc.latest := by
  induction bs generalizing fc with
  | nil => exact ⟨rfl, rfl, rfl⟩
  | cons b bs ih =>
    obtain ⟨h1, h2, h3⟩ := ih (on_block fc b)
    refine ⟨?_, h2, h3⟩
    rw [show feedBlocks fc (b :: bs) = feedBlocks (on_block fc b) bs from rfl, h1]
    simp [on_block, List.reverse_cons, List.append_assoc]

theorem feedBlocks_perm (fc : ForkChoiceStore) {bs₁ bs₂ : List Block} (h : bs₁.Perm bs₂) :
    (feedBlocks fc bs₁).nodes.Perm (feedBlocks fc bs₂).nodes := by
  rw [(feedBlocks_state fc bs₁).1, (feedBlocks_state fc bs₂).1]
  exact ((List.reverse_perm _).trans ((h.map _).trans (List.reverse_perm _).symm)).append_right _

/-- Claim C2: two instances fed the same set of blocks and attestations, with
the blocks arriving in any two orders (in particular sibling forks swapped)
and the blocks pairwise distinct, return the identical `get_head` root,
because the descent from the justified checkpoint picks the child of
greatest accumulated weight and breaks ties by the smallest block_root. -/
theorem get_head_order_independent (fc : ForkChoiceStore) (bs₁ bs₂ : List Block)
    (atts : List Attestation) (hperm : bs₁.Perm bs₂)
    (hnd : ((feedBlocks fc bs₁).nodes.map Prod.fst).Nodup) :
    get_head (feedAtts (feedBlocks fc bs₁) atts) =
    get_head (feedAtts (feedBlocks fc bs₂) atts) := by
  have hn := feedBlocks_perm fc hperm
  have hj : (feedBlocks fc bs₁).justified = (feedBlocks fc bs₂).justified := by
    rw [(feedBlocks_state fc bs₁).2.1, (feedBlocks_state fc bs₂).2.1]
  have hl : (feedBlocks fc bs₁).latest = (feedBlocks fc bs₂).latest := by
    rw [(feedBlocks_state fc bs₁).2.2, (feedBlocks_state fc bs₂).2.2]
  obtain ⟨hn', hj', hl', nd'⟩ := feedAtts_congr atts hn hj hl hnd
  exact get_head_congr hn' hj' nd'

theorem get_head_order_independent_witness :
    ([(⟨1, 0, 0, true, true⟩ : Block), ⟨1, 0, 1, true, true⟩].Perm
      [⟨1, 0, 1, true, true⟩, ⟨1, 0, 0, true, true⟩]) ∧
    ((feedBlocks ⟨[], ⟨0, 0⟩, []⟩
        [(⟨1, 0, 0, true, true⟩ : Block), ⟨1, 0, 1, true, true⟩]).nodes.map Prod.fst).Nodup ∧
    get_head (feedAtts (feedBlocks ⟨[], ⟨0, 0⟩, []⟩
        [(⟨1, 0, 0, true, true⟩ : Block), ⟨1, 0, 1, true, true⟩])
        [⟨7, 1, hashBlock ⟨1, 0, 0, true, true⟩, 3⟩]) =
      get_head (feedAtts (feedBlocks ⟨[], ⟨0, 0⟩, []⟩
        [(⟨1, 0, 1, true, true⟩ : Block), ⟨1, 0, 0, true, true⟩])
        [⟨7, 1, hashBlock ⟨1, 0, 0, true, true⟩, 3⟩]) :=
  ⟨by decide, by decide,
    get_head_order_independent ⟨[], ⟨0, 0⟩, []⟩
      [⟨1, 0, 0, true, true⟩, ⟨1, 0, 1, true, true⟩]
      [⟨1, 0, 1, true, true⟩, ⟨1, 0, 0, true, true⟩]
      [⟨7, 1, hashBlock ⟨1, 0, 0, true, true⟩, 3⟩] (by decide) (by decide)⟩

end BeaconChain

